import Mathlib

/-!
# Verification of the kmla log ingestion and analysis pipeline

Shallow embedding of the core of the kmla repository (a Keyboard Maestro log
analyzer): the line parser (src/lib/log-parser.ts), the deduplicators (the
standalone deduplicateEntries and the inline deduplication of the page
orchestrator), the per-macro aggregation (page.tsx macroStats plus the
table's descending sort), the hotkey aggregation (keyboard-analysis.tsx),
the time-bucket aggregation (time-analysis.tsx) and the selection filters.

JavaScript strings are modeled as lists of unicode characters, JS Date
values through an explicit proleptic-Gregorian epoch-milliseconds
computation (local wall-clock treated as a fixed offset, so differences and
calendar fields agree with the source), JS Map (insertion ordered) as an
association list with in-place update, JS Set as a Finset, and the stable
Array.prototype.sort as List.mergeSort.
-/

namespace Kmla

/-- Model of a JavaScript string: a list of unicode characters. -/
abbrev Str := List Char

/-! ## Time model: new Date("YYYY-MM-DD HH:MM:SS").getTime() -/

/-- Digits of a numeral to a natural number (non-digits contribute garbage,
as the model is total; the parser only feeds digit runs). -/
def digitsToNat (s : Str) : Nat :=
  s.foldl (fun n c => n * 10 + (c.toNat - 48)) 0

/-- Gregorian leap year test. -/
def isLeap (y : Nat) : Bool :=
  y % 4 == 0 && (y % 100 != 0 || y % 400 == 0)

/-- Days in the months before month m (1-based), for a non-leap year. -/
def monthOffsets : List Nat :=
  [0, 31, 59, 90, 120, 151, 181, 212, 243, 273, 304, 334]

/-- Days before the first of month m of a year with the given leapness. -/
def daysBeforeMonth (m : Nat) (leap : Bool) : Nat :=
  (monthOffsets.getD (m - 1) 0) + (if leap ∧ m > 2 then 1 else 0)

/-- Days from 0001-01-01 to the first day of year y (proleptic Gregorian). -/
def daysFromYearOne (y : Nat) : Nat :=
  365 * (y - 1) + (y - 1) / 4 - (y - 1) / 100 + (y - 1) / 400

/-- Day number of a civil date relative to the Unix epoch 1970-01-01. -/
def epochDayOf (y m d : Nat) : Int :=
  (daysFromYearOne y + daysBeforeMonth m (isLeap y) + (d - 1) : Int) - 719162

/-- Split a character list at every occurrence of the separator char. -/
def splitOnChar (sep : Char) : Str → List Str
  | [] => [[]]
  | x :: xs =>
    match splitOnChar sep xs, decide (x = sep) with
    | r, true => [] :: r
    | [], false => [[x]]
    | h :: t, false => (x :: h) :: t

/-- Model of new Date(s).getTime() for a "YYYY-MM-DD HH:MM:SS" string, in
milliseconds; unparseable strings map to 0 (the model's stand-in for an
invalid date, which no claim exercises). -/
def getTimeMs (s : Str) : Int :=
  match splitOnChar ' ' s with
  | [dat, tim] =>
    match splitOnChar '-' dat, splitOnChar ':' tim with
    | [y, m, d], [h, mi, sec] =>
      (epochDayOf (digitsToNat y) (digitsToNat m) (digitsToNat d)) * 86400000
        + (digitsToNat h) * 3600000 + (digitsToNat mi) * 60000
        + (digitsToNat sec) * 1000
    | _, _ => 0
  | _ => 0

/-! ## Generic string helpers (models of JS string methods) -/

/-- Does the pattern occur at the head of the string? -/
def startsWith : Str → Str → Bool
  | [], _ => true
  | _ :: _, [] => false
  | p :: ps, x :: xs => p == x && startsWith ps xs

/-- Suffix just after the first occurrence of the pattern, if any
(model of searching for a literal and keeping the rest). -/
def afterFirst (pat : Str) : Str → Option Str
  | [] => if pat = [] then some [] else none
  | x :: xs =>
    if startsWith pat (x :: xs) then some ((x :: xs).drop pat.length)
    else afterFirst pat xs

/-- Does the string contain the pattern as a substring
(model of String.prototype.includes)? -/
def containsSub (pat s : Str) : Bool :=
  (afterFirst pat s).isSome

/-- Index of the last occurrence of the pattern, if any. -/
def lastOccurrence (pat : Str) : Str → Option Nat
  | [] => if pat = [] then some 0 else none
  | x :: xs =>
    match lastOccurrence pat xs with
    | some i => some (i + 1)
    | none => if startsWith pat (x :: xs) then some 0 else none

/-- Model of String.prototype.trim: drop leading and trailing whitespace. -/
def trimStr (s : Str) : Str :=
  ((s.dropWhile Char.isWhitespace).reverse.dropWhile Char.isWhitespace).reverse

/-- Remove the first occurrence of a character
(model of String.prototype.replace(symbol, "") for a one-char symbol). -/
def removeFirst (c : Char) : Str → Str
  | [] => []
  | x :: xs => if x = c then xs else x :: removeFirst c xs

/-! ## Data model (src/lib/log-parser.ts) -/

/-- LogEntry record from src/lib/log-parser.ts. -/
structure LogEntry where
  timestamp : Str
  macroName : Str
  trigger : Str
  raw : Str
deriving DecidableEq, Repr

instance : Inhabited LogEntry := ⟨⟨[], [], [], []⟩⟩

/-- Time of an entry: new Date(entry.timestamp).getTime(). -/
def entryTime (e : LogEntry) : Int := getTimeMs e.timestamp

/-- Sort key relation used everywhere the source sorts entries by time:
comparator (a, b) => timeA - timeB. -/
def entryLe (a b : LogEntry) : Bool := decide (entryTime a ≤ entryTime b)

/-! ## LineParser (parseLogData) -/

/-- Replace the two smart double-quote characters by a straight quote
(preprocessContent in the source). -/
def preprocessContent (content : Str) : Str :=
  content.map fun c => if c = '“' ∨ c = '”' then '"' else c

/-- Format template for the anchored timestamp regex
^(\d{4}-\d{2}-\d{2} \d{2}:\d{2}:\d{2}): n stands for a digit. -/
def tsFormat : Str := "nnnn-nn-nn nn:nn:nn".data

/-- Does the string match the format template character by character? -/
def matchesFormat : Str → Str → Bool
  | [], [] => true
  | 'n' :: fs, c :: cs => c.isDigit && matchesFormat fs cs
  | f :: fs, c :: cs => f == c && matchesFormat fs cs
  | _, _ => false

/-- Leading timestamp of a line, if the line starts with one
(the anchored timestamp regex of parseLogData). -/
def matchTimestamp (line : Str) : Option Str :=
  if matchesFormat tsFormat (line.take 19) then some (line.take 19) else none

/-- Quoted text up to the next straight quote, requiring the closing quote
(the capture group of /Execute macro "([^"]*)"/ after its opening quote). -/
def upToQuote (s : Str) : Option Str :=
  if '"' ∈ s then some (s.takeWhile (fun c => c ≠ '"')) else none

/-- Macro-name capture of /Execute macro "([^"]*)"/ on a line. -/
def macroCapture (line : Str) : Option Str :=
  (afterFirst ("Execute macro \"".data) line).bind upToQuote

/-- Trigger capture of /from trigger (.+)$/ on a line: everything after the
first occurrence of the literal, required non-empty. -/
def matchTrigger (line : Str) : Option Str :=
  match afterFirst ("from trigger ".data) line with
  | none => none
  | some r => if r = [] then none else some r

/-- Per-line step of parseLogData: skip lines without "Execute macro", then
extract timestamp, macro name and trigger, trimming each; any failed
extraction skips the line. -/
def parseLine (line : Str) : Option LogEntry :=
  if ¬ (containsSub ("Execute macro".data) line = true) then none
  else
    match matchTimestamp line with
    | none => none
    | some ts =>
      match macroCapture line with
      | none => none
      | some name =>
        match matchTrigger line with
        | none => none
        | some trig => some ⟨trimStr ts, trimStr name, trimStr trig, line⟩

/-- Entries collected line by line, in input order: preprocess smart quotes,
split on newlines, drop whitespace-only lines, parse each trimmed line. -/
def collectEntries (content : Str) : List LogEntry :=
  ((splitOnChar '\n' (preprocessContent content)).filter
      (fun l => trimStr l ≠ [])).filterMap (fun l => parseLine (trimStr l))

/-- parseLogData from src/lib/log-parser.ts: collect entries, then the final
entries.sort((a, b) => timeA - timeB), a stable ascending sort. -/
def parseLogData (content : Str) : List LogEntry :=
  (collectEntries content).mergeSort entryLe

/-! ## Deduplicator (deduplicateEntries, src/lib/log-parser.ts) -/

/-- Keep condition of both deduplicators: different macro name, or elapsed
time at least the window. -/
def keepCond (w : Int) (prev c : LogEntry) : Prop :=
  c.macroName ≠ prev.macroName ∨ entryTime c - entryTime prev ≥ w

instance (w : Int) (prev c : LogEntry) : Decidable (keepCond w prev c) := by
  unfold keepCond; infer_instance

/-- Loop of deduplicateEntries: prev is the last element pushed onto the
deduplicated array. -/
def dedupGo (w : Int) (prev : LogEntry) : List LogEntry → List LogEntry
  | [] => []
  | c :: rest =>
    if keepCond w prev c then c :: dedupGo w c rest
    else dedupGo w prev rest

/-- deduplicateEntries from src/lib/log-parser.ts: always keep the first
entry, then compare each entry against the last kept one. -/
def deduplicateEntries (entries : List LogEntry) (w : Int) : List LogEntry :=
  match entries with
  | [] => []
  | x :: rest => x :: dedupGo w x rest

/-! ## The page orchestrator's inline deduplication (app/page.tsx) -/

/-- Boolean keep predicate of the page.tsx filter callback:
!(entry.macroName === prev.macroName && timeDiff < window). -/
def keepPrevB (w : Int) (prev c : LogEntry) : Bool :=
  !(c.macroName == prev.macroName && decide (entryTime c - entryTime prev < w))

/-- Inline deduplication of page.tsx filteredData: a filter over the array
where each element at index i > 0 is compared against arr[i-1], the
previous element of the input array (kept or not). -/
def filteredDataDedup (xs : List LogEntry) (w : Int) : List LogEntry :=
  ((xs.enum.filter
      (fun ie => ie.1 == 0 || keepPrevB w (xs.getD (ie.1 - 1) default) ie.2)).map
    (fun ie => ie.2))

/-- Full deduplication step of page.tsx filteredData: re-sort by timestamp
(stable), then the index-based filter. -/
def pipelineDedup (xs : List LogEntry) (w : Int) : List LogEntry :=
  filteredDataDedup (xs.mergeSort entryLe) w

/-- Modelled from the spec words of the deduplication contract (§4.2): the
first entry is always kept; each subsequent entry is kept iff its macro name
differs from the most recently KEPT entry's or the elapsed time since that
kept entry is at least the window. Stated as a fold that appends to the
kept list and consults its last element. -/
def lastKeptStep (w : Int) (kept : List LogEntry) (c : LogEntry) : List LogEntry :=
  match kept.getLast? with
  | none => [c]
  | some prev => if keepCond w prev c then kept ++ [c] else kept

/-- Reference deduplication per the claim's words (last-kept entry as the
reference point). -/
def dedupLastKeptSpec (xs : List LogEntry) (w : Int) : List LogEntry :=
  xs.foldl (lastKeptStep w) []

/-- Reference deduplication with the previous INPUT entry as reference
point: the prev pointer advances on every entry whether kept or not. -/
def dedupPrevGo (w : Int) (prev : LogEntry) : List LogEntry → List LogEntry
  | [] => []
  | c :: l =>
    if keepPrevB w prev c then c :: dedupPrevGo w c l
    else dedupPrevGo w c l

/-- Reference form of the page.tsx deduplication: keep the first entry, then
keep each entry iff it differs from the immediately preceding input entry
or is at least the window away from it. -/
def dedupPrevInputSpec (xs : List LogEntry) (w : Int) : List LogEntry :=
  match xs with
  | [] => []
  | x :: rest => x :: dedupPrevGo w x rest

/-! ## Deduplication lemmas -/

theorem dedupGo_chain (w : Int) :
    ∀ (l : List LogEntry) (prev : LogEntry),
      List.Chain (keepCond w) prev (dedupGo w prev l)
  | [], _ => List.Chain.nil
  | c :: rest, prev => by
    unfold dedupGo
    by_cases h : keepCond w prev c
    · simp only [if_pos h]
      exact List.Chain.cons h (dedupGo_chain w rest c)
    · simp only [if_neg h]
      exact dedupGo_chain w rest prev

theorem dedupGo_of_chain (w : Int) :
    ∀ (l : List LogEntry) (prev : LogEntry),
      List.Chain (keepCond w) prev l → dedupGo w prev l = l
  | [], _, _ => rfl
  | c :: rest, prev, h => by
    rcases h with _ | ⟨hk, hrest⟩
    unfold dedupGo
    rw [if_pos hk, dedupGo_of_chain w rest c hrest]

/-- The standalone deduplicateEntries equals the fold that appends to the
kept list and consults its last element. -/
theorem dedupGo_foldl (w : Int) :
    ∀ (l : List LogEntry) (kept : List LogEntry) (p : LogEntry),
      List.foldl (lastKeptStep w) (kept ++ [p]) l = kept ++ [p] ++ dedupGo w p l
  | [], kept, p => by simp [dedupGo]
  | c :: rest, kept, p => by
    rw [List.foldl_cons]
    have hstep : lastKeptStep w (kept ++ [p]) c
        = if keepCond w p c then (kept ++ [p]) ++ [c] else kept ++ [p] := by
      unfold lastKeptStep
      rw [List.getLast?_concat]
    rw [hstep]
    by_cases h : keepCond w p c
    · rw [if_pos h, dedupGo_foldl w rest (kept ++ [p]) c]
      have hg : dedupGo w p (c :: rest) = c :: dedupGo w c rest := by
        simp only [dedupGo]; rw [if_pos h]
      rw [hg]
      simp
    · rw [if_neg h, dedupGo_foldl w rest kept p]
      have hg : dedupGo w p (c :: rest) = dedupGo w p rest := by
        simp only [dedupGo]; rw [if_neg h]
      rw [hg]

theorem deduplicateEntries_eq_lastKeptSpec (xs : List LogEntry) (w : Int) :
    deduplicateEntries xs w = dedupLastKeptSpec xs w := by
  cases xs with
  | nil => rfl
  | cons x rest =>
    unfold deduplicateEntries dedupLastKeptSpec
    rw [List.foldl_cons]
    have h0 : lastKeptStep w [] x = [] ++ [x] := rfl
    rw [h0, dedupGo_foldl w rest [] x]
    simp

theorem getD_of_drop {α : Type} [Inhabited α] :
    ∀ (full : List α) (k : Nat) (x : α) (t : List α),
      full.drop k = x :: t → full.getD k default = x
  | [], k, x, t, h => by simp at h
  | a :: f, 0, x, t, h => by
    simp only [List.drop_zero] at h
    cases h; rfl
  | a :: f, k + 1, x, t, h => by
    simp only [List.drop_succ_cons] at h
    simpa using getD_of_drop f k x t h

/-- The index-based filter of page.tsx, restricted to positions after the
head, equals the recursive previous-input-entry scan. -/
theorem filteredData_aux (w : Int) :
    ∀ (l : List LogEntry) (k : Nat) (prev : LogEntry) (full : List LogEntry),
      full.drop k = prev :: l →
      ((l.enumFrom (k + 1)).filter
          (fun ie => ie.1 == 0 || keepPrevB w (full.getD (ie.1 - 1) default) ie.2)).map
        (fun ie => ie.2) = dedupPrevGo w prev l
  | [], _, _, _, _ => rfl
  | c :: rest, k, prev, full, h => by
    have hk : full.getD k default = prev := getD_of_drop full k prev (c :: rest) h
    have hdrop : full.drop (k + 1) = c :: rest := by
      rw [← List.drop_drop 1 k full, h, List.drop_succ_cons, List.drop_zero]
    have ih := filteredData_aux w rest (k + 1) c full hdrop
    rw [List.enumFrom_cons, List.filter_cons]
    simp only [Nat.add_sub_cancel, hk]
    have hne : ((k + 1 == 0) || keepPrevB w prev c) = keepPrevB w prev c := by
      simp
    rw [hne]
    unfold dedupPrevGo
    by_cases hkeep : keepPrevB w prev c = true
    · rw [if_pos hkeep, if_pos hkeep, List.map_cons, ih]
    · rw [if_neg hkeep, if_neg hkeep, ih]

theorem filteredDataDedup_eq_prevInputSpec (xs : List LogEntry) (w : Int) :
    filteredDataDedup xs w = dedupPrevInputSpec xs w := by
  cases xs with
  | nil => rfl
  | cons x rest =>
    unfold filteredDataDedup dedupPrevInputSpec List.enum
    have h := filteredData_aux w rest 0 x (x :: rest) (by simp)
    simp only [Nat.zero_add] at h
    rw [List.enumFrom_cons]
    simp only [List.filter_cons, beq_self_eq_true, Bool.true_or, if_true, List.map_cons, h]

/-! ## Concrete entries for counterexamples and witnesses -/

/-- Three executions of macro A one second apart. -/
def exA0 : LogEntry := ⟨"2024-01-01 00:00:00".data, "A".data, "t".data, "r".data⟩

/-- Second execution, one second after exA0. -/
def exA1 : LogEntry := ⟨"2024-01-01 00:00:01".data, "A".data, "t".data, "r".data⟩

/-- Third execution, two seconds after exA0. -/
def exA2 : LogEntry := ⟨"2024-01-01 00:00:02".data, "A".data, "t".data, "r".data⟩

/-- Ascending-by-time input on which the two deduplication rules disagree
for a 1500 ms window. -/
def exC1 : List LogEntry := [exA0, exA1, exA2]

/-- Claim C1 is false of the code: on three A-executions at 0 s, 1 s and 2 s
with a 1500 ms window, the pipeline's deduplication (page.tsx filteredData)
keeps only the first entry, while the last-kept-entry rule stated by the
claim would keep the first and third (the third is 2000 ms ≥ 1500 ms past
the last KEPT entry, but only 1000 ms past the previous INPUT entry). -/
theorem claim_C1_counterexample :
    List.Pairwise (fun a b => entryLe a b = true) exC1 ∧
    pipelineDedup exC1 1500 = [exA0] ∧
    dedupLastKeptSpec exC1 1500 = [exA0, exA2] ∧
    pipelineDedup exC1 1500 ≠ dedupLastKeptSpec exC1 1500 := by
  have hs : List.Pairwise (fun a b => entryLe a b = true) exC1 := by decide
  have h1 : pipelineDedup exC1 1500 = filteredDataDedup exC1 1500 := by
    unfold pipelineDedup
    rw [List.mergeSort_of_sorted hs]
  exact ⟨hs, by rw [h1]; decide, by decide, by rw [h1]; decide⟩

/-- Claim C1 (amended): for every entry sequence sorted ascending by
timestamp and every window, the deduplication the pipeline performs keeps
the first entry and keeps each subsequent entry iff its macro name differs
from the immediately preceding INPUT entry's macro name or the elapsed time
since that preceding input entry is at least windowMs (the reference point
advances on every input entry, kept or not); the standalone
deduplicateEntries function is the one that uses the most recently KEPT
entry as the reference point, as the claim originally stated. -/
theorem claim_C1 (xs : List LogEntry) (w : Int)
    (hs : List.Pairwise (fun a b => entryLe a b = true) xs) :
    pipelineDedup xs w = dedupPrevInputSpec xs w ∧
    deduplicateEntries xs w = dedupLastKeptSpec xs w := by
  constructor
  · unfold pipelineDedup
    rw [List.mergeSort_of_sorted hs, filteredDataDedup_eq_prevInputSpec]
  · exact deduplicateEntries_eq_lastKeptSpec xs w

/-- Witness for claim C1 at the concrete sorted input exC1. -/
theorem claim_C1_witness :
    pipelineDedup exC1 1500 = dedupPrevInputSpec exC1 1500 ∧
    deduplicateEntries exC1 1500 = dedupLastKeptSpec exC1 1500 :=
  claim_C1 exC1 1500 (by decide)

/-- Claim C6: deduplication is idempotent — deduplicating an already
deduplicated sequence with the same window changes nothing, for every entry
sequence and every window. -/
theorem claim_C6 (xs : List LogEntry) (w : Int) :
    deduplicateEntries (deduplicateEntries xs w) w = deduplicateEntries xs w := by
  cases xs with
  | nil => rfl
  | cons x rest =>
    simp only [deduplicateEntries]
    rw [dedupGo_of_chain w (dedupGo w x rest) x (dedupGo_chain w rest x)]

/-! ## Stability of the stable sort on tied elements -/

/-- A stable sort leaves the subsequence of mutually tied elements exactly
as it was in the input: filtering the sorted list by a predicate whose
selected elements are all related by the sort order gives the same list as
filtering the input. -/
theorem mergeSort_filter_stable {α : Type} (le : α → α → Bool)
    (htrans : ∀ a b c, le a b → le b c → le a c)
    (htotal : ∀ a b, le a b || le b a)
    (p : α → Bool) (l : List α)
    (hp : ∀ a b, p a → p b → le a b) :
    (l.mergeSort le).filter p = l.filter p := by
  have hpw : (l.filter p).Pairwise (fun a b => le a b = true) :=
    List.pairwise_of_forall_mem_list fun a ha b hb =>
      hp a b (List.of_mem_filter ha) (List.of_mem_filter hb)
  have h1 : List.Sublist (l.filter p) (l.mergeSort le) :=
    List.sublist_mergeSort htrans htotal hpw (List.filter_sublist l)
  have h2 : List.Sublist (l.filter p) ((l.mergeSort le).filter p) := by
    have h := h1.filter p
    rw [List.filter_filter] at h
    simpa only [Bool.and_self] using h
  have h3 : ((l.mergeSort le).filter p).length = (l.filter p).length :=
    ((List.mergeSort_perm l le).filter p).length_eq
  exact (h2.eq_of_length h3.symm).symm

/-- Transitivity of the entry time comparison. -/
theorem entryLe_trans (a b c : LogEntry) :
    entryLe a b → entryLe b c → entryLe a c := by
  unfold entryLe
  simp only [decide_eq_true_eq]
  omega

/-- Totality of the entry time comparison. -/
theorem entryLe_total (a b : LogEntry) : entryLe a b || entryLe b a := by
  unfold entryLe
  rcases le_total (entryTime a) (entryTime b) with h | h <;> simp [h]

/-- Claim C7: for every input text, parse output is sorted ascending by
timestamp, and the subsequence of entries carrying any fixed timestamp is
exactly the subsequence collected in input line order (stable on ties). -/
theorem claim_C7 (content : Str) :
    List.Pairwise (fun a b => entryTime a ≤ entryTime b) (parseLogData content) ∧
    ∀ t : Str, (parseLogData content).filter (fun e => decide (e.timestamp = t))
      = (collectEntries content).filter (fun e => decide (e.timestamp = t)) := by
  constructor
  · have h := List.sorted_mergeSort entryLe_trans entryLe_total
      (collectEntries content)
    exact h.imp fun hab => by
      have := of_decide_eq_true hab
      exact this
  · intro t
    exact mergeSort_filter_stable entryLe entryLe_trans entryLe_total
      (fun e => decide (e.timestamp = t)) (collectEntries content)
      (fun a b ha hb => by
        have ha' := of_decide_eq_true ha
        have hb' := of_decide_eq_true hb
        unfold entryLe entryTime
        rw [ha', hb']
        simp)

/-- Claim C4 (amended): every LogEntry produced by parse has macroName equal
to the trimmed capture of the first double-quoted string after
"Execute macro" in its raw line; in particular macroName is empty exactly
when that quoted text trims to nothing, rather than being always
non-empty. -/
theorem claim_C4 (content : Str) (e : LogEntry)
    (he : e ∈ parseLogData content) :
    ∃ n, macroCapture e.raw = some n ∧ e.macroName = trimStr n := by
  unfold parseLogData collectEntries at he
  rcases List.mem_filterMap.mp (List.mem_mergeSort.mp he) with ⟨l, _, hp⟩
  unfold parseLine at hp
  by_cases h1 : ¬ (containsSub ("Execute macro".data) (trimStr l) = true)
  · rw [if_pos h1] at hp; cases hp
  · rw [if_neg h1] at hp
    cases hts : matchTimestamp (trimStr l) with
    | none => rw [hts] at hp; cases hp
    | some ts =>
      rw [hts] at hp
      cases hmc : macroCapture (trimStr l) with
      | none => rw [hmc] at hp; cases hp
      | some name =>
        rw [hmc] at hp
        cases htr : matchTrigger (trimStr l) with
        | none => rw [htr] at hp; cases hp
        | some trig =>
          rw [htr] at hp
          cases hp
          exact ⟨name, hmc, rfl⟩

/-- Input line whose quoted macro name is empty. -/
def cexC4 : Str := "2024-01-01 00:00:00 Execute macro \"\" from trigger x".data

/-- Entry the parser produces for cexC4: its macroName is the empty
string. -/
def cexEntry : LogEntry :=
  ⟨"2024-01-01 00:00:00".data, [], "x".data, cexC4⟩

/-- Claim C4 is false as stated: on a log line whose quoted macro name is
empty, parse produces an entry whose macroName is the empty string. -/
theorem claim_C4_counterexample :
    (parseLogData cexC4).map (fun e => e.macroName) = [[]] := by
  have hc : collectEntries cexC4 = [cexEntry] := by decide
  unfold parseLogData
  rw [hc, List.mergeSort_singleton]
  decide

/-- Witness for claim C4 at the concrete input cexC4. -/
theorem claim_C4_witness :
    ∃ n, macroCapture cexEntry.raw = some n ∧ cexEntry.macroName = trimStr n :=
  claim_C4 cexC4 cexEntry (by
    have hc : collectEntries cexC4 = [cexEntry] := by decide
    unfold parseLogData
    rw [hc, List.mergeSort_singleton]
    exact List.mem_singleton_self _)

/-! ## Per-macro aggregation (macroStats in app/page.tsx) -/

/-- Accumulator for one macro in the page.tsx stats Map. -/
structure MacroAcc where
  count : Nat
  firstSeen : Int
  lastSeen : Int
  triggers : List Str
deriving DecidableEq, Repr

instance : Inhabited MacroAcc := ⟨⟨0, 0, 0, []⟩⟩

/-- Lookup in the insertion-ordered map (JS Map.get). -/
def getAssoc (k : Str) : List (Str × MacroAcc) → Option MacroAcc
  | [] => none
  | (k', v') :: rest => if k' = k then some v' else getAssoc k rest

/-- Store into the insertion-ordered map (JS Map.set): an existing key keeps
its position, a new key is appended at the end. -/
def setAssoc (k : Str) (v : MacroAcc) : List (Str × MacroAcc) → List (Str × MacroAcc)
  | [] => [(k, v)]
  | (k', v') :: rest => if k' = k then (k, v) :: rest else (k', v') :: setAssoc k v rest

/-- Add to a JS Set of trigger strings (insertion ordered, no duplicate). -/
def addTrigger (ts : List Str) (t : Str) : List Str :=
  if t ∈ ts then ts else ts ++ [t]

/-- Per-entry update of an accumulator: count++, lastSeen := entry time,
firstSeen := min, triggers.add(entry.trigger). -/
def updAcc (t : Int) (trig : Str) (a : MacroAcc) : MacroAcc :=
  { count := a.count + 1
    lastSeen := t
    firstSeen := if t < a.firstSeen then t else a.firstSeen
    triggers := addTrigger a.triggers trig }

/-- Per-entry step of the macroStats useMemo: entries with a falsy (empty)
macroName are skipped; otherwise get-or-default then update then set. -/
def statsStep (m : List (Str × MacroAcc)) (e : LogEntry) : List (Str × MacroAcc) :=
  if e.macroName = [] then m
  else
    let t := entryTime e
    let a := match getAssoc e.macroName m with
             | some a => a
             | none => ⟨0, t, t, []⟩
    setAssoc e.macroName (updAcc t e.trigger a) m

/-- Accumulation pass of macroStats over the filtered entries. -/
def macroStatsMap (entries : List LogEntry) : List (Str × MacroAcc) :=
  entries.foldl statsStep []

/-- MacroStatEntry record from components/shared/macro-statistics-table.tsx;
avgPerDay is modeled as the exact rational count / daysDiff, built with
mkRat (the source's toFixed(1) decimal rendering is presentational). -/
structure MacroStatEntry where
  name : Str
  count : Nat
  avgPerDay : ℚ
  firstSeen : Int
  lastSeen : Int
  triggers : Str
  daysDiff : Int
deriving DecidableEq, Repr

/-- Ceiling of x / d for positive d (Math.ceil on the exact quotient). -/
def ceilDiv (x d : Int) : Int := -((-x).ediv d)

/-- Join a list of strings with ", " (Array.from(set).join(", ")). -/
def joinComma : List Str → Str
  | [] => []
  | [t] => t
  | t :: rest => t ++ (", ".data) ++ joinComma rest

/-- Finalization of one map entry into a MacroStatEntry:
daysDiff = max(1, ceil((lastSeen - firstSeen) / 86400000)). -/
def finalizeStat (kv : Str × MacroAcc) : MacroStatEntry :=
  { name := kv.1
    count := kv.2.count
    avgPerDay := mkRat kv.2.count (max 1 (ceilDiv (kv.2.lastSeen - kv.2.firstSeen) 86400000)).toNat
    firstSeen := kv.2.firstSeen
    lastSeen := kv.2.lastSeen
    triggers := joinComma kv.2.triggers
    daysDiff := max 1 (ceilDiv (kv.2.lastSeen - kv.2.firstSeen) 86400000) }

/-- macroStats from app/page.tsx: accumulate, then map to stat entries, in
Map insertion order (order of first appearance). -/
def macroStats (entries : List LogEntry) : List MacroStatEntry :=
  (macroStatsMap entries).map finalizeStat

/-- Descending-by-count comparison of the table sort
(comparator (a, b) => b.count - a.count). -/
def statCountLe (a b : MacroStatEntry) : Bool := decide (b.count ≤ a.count)

/-- gridRowData from components/shared/macro-statistics-table.tsx: a stable
sort of the stats descending by count. -/
def gridRowData (stats : List MacroStatEntry) : List MacroStatEntry :=
  stats.mergeSort statCountLe

/-- Names of the macros in order of first appearance in the input, skipping
entries with an empty macro name (the reference order for tie stability). -/
def firstSeenOrder (entries : List LogEntry) : List Str :=
  entries.foldl
    (fun ks e => if e.macroName = [] ∨ e.macroName ∈ ks then ks else ks ++ [e.macroName]) []

/-! ## Lemmas about the accumulation map -/

theorem setAssoc_mem (k : Str) (v : MacroAcc) :
    ∀ (m : List (Str × MacroAcc)) (kv : Str × MacroAcc),
      kv ∈ setAssoc k v m → kv = (k, v) ∨ kv ∈ m
  | [], kv, h => by
    simp only [setAssoc, List.mem_singleton] at h
    exact Or.inl h
  | (k', v') :: rest, kv, h => by
    unfold setAssoc at h
    by_cases hk : k' = k
    · rw [if_pos hk] at h
      rcases List.mem_cons.mp h with h | h
      · exact Or.inl h
      · exact Or.inr (List.mem_cons_of_mem _ h)
    · rw [if_neg hk] at h
      rcases List.mem_cons.mp h with h | h
      · exact Or.inr (h ▸ List.mem_cons_self _ _)
      · rcases setAssoc_mem k v rest kv h with h | h
        · exact Or.inl h
        · exact Or.inr (List.mem_cons_of_mem _ h)

theorem map_fst_setAssoc (k : Str) (v : MacroAcc) :
    ∀ (m : List (Str × MacroAcc)),
      (setAssoc k v m).map (fun kv => kv.1)
        = if k ∈ m.map (fun kv => kv.1) then m.map (fun kv => kv.1)
          else m.map (fun kv => kv.1) ++ [k]
  | [] => by simp [setAssoc]
  | (k', v') :: rest => by
    unfold setAssoc
    by_cases hk : k' = k
    · rw [if_pos hk]
      simp [hk]
    · rw [if_neg hk]
      have := map_fst_setAssoc k v rest
      by_cases hmem : k ∈ rest.map (fun kv => kv.1)
      · simp only [List.map_cons, this, if_pos hmem]
        rw [if_pos]
        simp [hmem]
      · simp only [List.map_cons, this, if_neg hmem]
        rw [if_neg]
        · simp
        · simp only [List.mem_cons]
          rintro (h | h)
          · exact hk h.symm
          · exact hmem h

theorem getAssoc_eq_none (k : Str) :
    ∀ (m : List (Str × MacroAcc)),
      getAssoc k m = none ↔ k ∉ m.map (fun kv => kv.1)
  | [] => by simp [getAssoc]
  | (k', v') :: rest => by
    unfold getAssoc
    by_cases hk : k' = k
    · simp [hk]
    · rw [if_neg hk]
      rw [getAssoc_eq_none k rest]
      simp only [List.map_cons, List.mem_cons]
      constructor
      · rintro h (h' | h')
        · exact hk h'.symm
        · exact h h'
      · intro h h'
        exact h (Or.inr h')

/-- A single accumulation step changes the key sequence exactly as the
first-appearance fold does. -/
theorem map_fst_statsStep (m : List (Str × MacroAcc)) (e : LogEntry) :
    (statsStep m e).map (fun kv => kv.1)
      = if e.macroName = [] ∨ e.macroName ∈ m.map (fun kv => kv.1)
        then m.map (fun kv => kv.1)
        else m.map (fun kv => kv.1) ++ [e.macroName] := by
  simp only [statsStep]
  by_cases h0 : e.macroName = []
  · rw [if_pos h0, if_pos (Or.inl h0)]
  · rw [if_neg h0, map_fst_setAssoc]
    by_cases hm : e.macroName ∈ m.map (fun kv => kv.1)
    · rw [if_pos hm, if_pos (Or.inr hm)]
    · rw [if_neg hm, if_neg]
      rintro (h | h)
      · exact h0 h
      · exact hm h

/-- The keys of the accumulation map are the macro names in order of first
appearance. -/
theorem map_fst_foldl_statsStep :
    ∀ (l : List LogEntry) (m : List (Str × MacroAcc)),
      (l.foldl statsStep m).map (fun kv => kv.1)
        = l.foldl
            (fun ks e => if e.macroName = [] ∨ e.macroName ∈ ks then ks
              else ks ++ [e.macroName]) (m.map (fun kv => kv.1))
  | [], _ => rfl
  | e :: rest, m => by
    rw [List.foldl_cons, List.foldl_cons,
      map_fst_foldl_statsStep rest (statsStep m e), map_fst_statsStep]

/-- Every accumulator in the map has a positive count and firstSeen at most
lastSeen. -/
theorem macroStatsMap_invariant :
    ∀ (l : List LogEntry) (m : List (Str × MacroAcc)),
      (∀ kv ∈ m, 1 ≤ kv.2.count ∧ kv.2.firstSeen ≤ kv.2.lastSeen) →
      ∀ kv ∈ l.foldl statsStep m, 1 ≤ kv.2.count ∧ kv.2.firstSeen ≤ kv.2.lastSeen
  | [], _, hm => hm
  | e :: rest, m, hm => by
    rw [List.foldl_cons]
    apply macroStatsMap_invariant rest
    intro kv hkv
    simp only [statsStep] at hkv
    by_cases h0 : e.macroName = []
    · rw [if_pos h0] at hkv
      exact hm kv hkv
    · rw [if_neg h0] at hkv
      rcases setAssoc_mem _ _ m kv hkv with h | h
      · subst h
        constructor
        · exact Nat.le_add_left 1 _
        · simp only [updAcc]
          split
          · exact le_refl _
          · omega
      · exact hm kv h

/-- Transitivity of the descending count comparison. -/
theorem statCountLe_trans (a b c : MacroStatEntry) :
    statCountLe a b → statCountLe b c → statCountLe a c := by
  unfold statCountLe
  simp only [decide_eq_true_eq]
  omega

/-- Totality of the descending count comparison. -/
theorem statCountLe_total (a b : MacroStatEntry) :
    statCountLe a b || statCountLe b a := by
  unfold statCountLe
  rcases Nat.le_total a.count b.count with h | h <;> simp [h]

/-- Claim C2: the per-macro aggregation, as ranked by the statistics table,
is sorted descending by count; among entries of equal count the order is
the aggregation order, which lists macros by first appearance in the
input. -/
theorem claim_C2 (entries : List LogEntry) :
    List.Pairwise (fun a b => b.count ≤ a.count)
      (gridRowData (macroStats entries)) ∧
    (∀ c : Nat,
      (gridRowData (macroStats entries)).filter (fun s => decide (s.count = c))
        = (macroStats entries).filter (fun s => decide (s.count = c))) ∧
    (macroStats entries).map (fun s => s.name) = firstSeenOrder entries := by
  refine ⟨?_, ?_, ?_⟩
  · have h := List.sorted_mergeSort statCountLe_trans statCountLe_total
      (macroStats entries)
    exact h.imp fun hab => by
      have := of_decide_eq_true hab
      exact this
  · intro c
    exact mergeSort_filter_stable statCountLe statCountLe_trans statCountLe_total
      (fun s => decide (s.count = c)) (macroStats entries)
      (fun a b ha hb => by
        have ha' := of_decide_eq_true ha
        have hb' := of_decide_eq_true hb
        unfold statCountLe
        rw [ha', hb']
        simp)
  · have h := map_fst_foldl_statsStep entries []
    have h2 : (macroStats entries).map (fun s => s.name)
        = (macroStatsMap entries).map (fun kv => kv.1) := by
      unfold macroStats
      rw [List.map_map]
      rfl
    rw [h2]
    simpa [firstSeenOrder] using h

/-- Claim C9: every MacroStatEntry of the aggregation has count at least 1,
firstSeen at most lastSeen, and daysDiff computed as
max(1, ceil((lastSeen - firstSeen) in days)), hence at least 1. -/
theorem claim_C9 (entries : List LogEntry) (s : MacroStatEntry)
    (hs : s ∈ macroStats entries) :
    1 ≤ s.count ∧ s.firstSeen ≤ s.lastSeen ∧
    s.daysDiff = max 1 (ceilDiv (s.lastSeen - s.firstSeen) 86400000) ∧
    1 ≤ s.daysDiff := by
  rcases List.mem_map.mp hs with ⟨kv, hkv, rfl⟩
  have h := macroStatsMap_invariant entries [] (by simp) kv hkv
  exact ⟨h.1, h.2, rfl, le_max_left _ _⟩

/-- Stat entry produced for the single execution exA0. -/
def exStatC9 : MacroStatEntry :=
  finalizeStat ("A".data, ⟨1, entryTime exA0, entryTime exA0, ["t".data]⟩)

/-- Witness for claim C9 at a one-entry input. -/
theorem claim_C9_witness :
    1 ≤ exStatC9.count ∧ exStatC9.firstSeen ≤ exStatC9.lastSeen ∧
    exStatC9.daysDiff
      = max 1 (ceilDiv (exStatC9.lastSeen - exStatC9.firstSeen) 86400000) ∧
    1 ≤ exStatC9.daysDiff :=
  claim_C9 [exA0] exStatC9 (by decide)

/-! ## Time-bucket aggregation (timeData in components/time-analysis.tsx) -/

/-- Increment a counter map at a key (map.set(k, (map.get(k) || 0) + 1)):
an existing key is bumped in place, a new key appended at the end. -/
def bumpAssoc {κ : Type} [DecidableEq κ] (k : κ) : List (κ × Nat) → List (κ × Nat)
  | [] => [(k, 1)]
  | kv :: rest =>
    if kv.1 = k then (kv.1, kv.2 + 1) :: rest else kv :: bumpAssoc k rest

/-- Read a counter map at a key, zero if absent (map.get(k) || 0). -/
def countOf {κ : Type} [DecidableEq κ] (k : κ) : List (κ × Nat) → Nat
  | [] => 0
  | kv :: rest => if kv.1 = k then kv.2 else countOf k rest

/-- Hour of day of an entry, 0-23 (date.getHours() in the fixed-offset
model). -/
def entryHour (e : LogEntry) : Nat :=
  (((entryTime e).ediv 3600000).emod 24).toNat

/-- Calendar day number of an entry (the model of the ISO date key
toISOString().split("T")[0]). -/
def entryEpochDay (e : LogEntry) : Int :=
  (entryTime e).ediv 86400000

/-- Weekday index of an entry, 0 = Sunday (date.getDay(); 1970-01-01 was a
Thursday, index 4). -/
def entryWeekday (e : LogEntry) : Nat :=
  ((entryEpochDay e + 4).emod 7).toNat

/-- Weekday names, Sunday through Saturday, as in the source. -/
def weekdays : List Str :=
  ["Sunday".data, "Monday".data, "Tuesday".data, "Wednesday".data,
   "Thursday".data, "Friday".data, "Saturday".data]

/-- Weekday name of an entry. -/
def entryWeekdayName (e : LogEntry) : Str :=
  weekdays.getD (entryWeekday e) []

/-- Hour label "HH:00" (hour.toString().padStart(2, "0") + ":00"). -/
def renderHour (h : Nat) : Str :=
  (if h < 10 then ['0', Char.ofNat (48 + h)]
   else [Char.ofNat (48 + h / 10), Char.ofNat (48 + h % 10)]) ++ ":00".data

/-- Hourly bucket record of timeData. -/
structure HourBucket where
  hour : Str
  hourNum : Nat
  count : Nat
deriving DecidableEq, Repr

instance : Inhabited HourBucket := ⟨⟨[], 0, 0⟩⟩

/-- Daily bucket record of timeData (the locale dayName label of the source
is presentational and not modeled). -/
structure DayBucket where
  date : Int
  count : Nat
deriving DecidableEq, Repr

instance : Inhabited DayBucket := ⟨⟨0, 0⟩⟩

/-- Weekly bucket record of timeData. -/
structure WeekBucket where
  day : Str
  count : Nat
deriving DecidableEq, Repr

instance : Inhabited WeekBucket := ⟨⟨[], 0⟩⟩

/-- The three series returned by timeData. -/
structure TimeSeries where
  hourly : List HourBucket
  daily : List DayBucket
  weekly : List WeekBucket
deriving DecidableEq, Repr

/-- Ascending hour comparison ((a, b) => a.hourNum - b.hourNum). -/
def hourLe (a b : HourBucket) : Bool := decide (a.hourNum ≤ b.hourNum)

/-- Ascending date comparison (localeCompare on ISO date keys). -/
def dayLe (a b : DayBucket) : Bool := decide (a.date ≤ b.date)

/-- timeData from components/time-analysis.tsx: empty input short-circuits
to three empty series; otherwise the hourly map is pre-seeded with hours
0-23 and the weekly map with the seven weekday names, the daily map starts
empty, each entry bumps its three buckets, and the hourly/daily outputs are
sorted ascending. -/
def timeData (data : List LogEntry) : TimeSeries :=
  if data = [] then ⟨[], [], []⟩
  else
    { hourly :=
        ((data.foldl (fun m e => bumpAssoc (entryHour e) m)
              ((List.range 24).map fun h => (h, 0))).map
            (fun kv => HourBucket.mk (renderHour kv.1) kv.1 kv.2)).mergeSort hourLe
      daily :=
        ((data.foldl (fun m e => bumpAssoc (entryEpochDay e) m) []).map
            (fun kv => DayBucket.mk kv.1 kv.2)).mergeSort dayLe
      weekly :=
        weekdays.map fun d =>
          WeekBucket.mk d
            (countOf d (data.foldl (fun m e => bumpAssoc (entryWeekdayName e) m)
              (weekdays.map fun d' => (d', 0)))) }

/-! ## Lemmas about counter maps -/

theorem bumpAssoc_map_seeded {κ : Type} [DecidableEq κ] (x : κ) :
    ∀ (ks : List κ) (f : κ → Nat), x ∈ ks → ks.Nodup →
      bumpAssoc x (ks.map fun k => (k, f k))
        = ks.map fun k => (k, if k = x then f k + 1 else f k)
  | [], _, hx, _ => absurd hx (List.not_mem_nil x)
  | k0 :: rest, f, hx, hnd => by
    simp only [List.map_cons, bumpAssoc]
    by_cases hk : k0 = x
    · rw [if_pos hk, if_pos hk]
      have hrest : ∀ k ∈ rest, k ≠ x := by
        intro k hk' he
        have h1 := (List.nodup_cons.mp hnd).1
        rw [hk, ← he] at h1
        exact h1 hk'
      have : rest.map (fun k => (k, if k = x then f k + 1 else f k))
          = rest.map (fun k => (k, f k)) :=
        List.map_congr_left fun k hk' => by rw [if_neg (hrest k hk')]
      rw [this]
    · rw [if_neg hk, if_neg hk]
      have hx' : x ∈ rest := by
        rcases List.mem_cons.mp hx with h | h
        · exact absurd h.symm hk
        · exact h
      rw [bumpAssoc_map_seeded x rest f hx' (List.nodup_cons.mp hnd).2]

/-- Folding bumps over a seeded counter map counts the occurrences of each
seeded key, when every bumped key is among the seeds. -/
theorem foldl_bumpAssoc_seeded {κ : Type} [DecidableEq κ] :
    ∀ (keys : List κ) (ks : List κ) (f : κ → Nat),
      (∀ x ∈ keys, x ∈ ks) → ks.Nodup →
      keys.foldl (fun m x => bumpAssoc x m) (ks.map fun k => (k, f k))
        = ks.map fun k => (k, f k + (keys.filter (fun y => decide (y = k))).length)
  | [], ks, f, _, _ => by simp
  | x :: keys', ks, f, hmem, hnd => by
    rw [List.foldl_cons,
      bumpAssoc_map_seeded x ks f (hmem x (List.mem_cons_self x keys')) hnd,
      foldl_bumpAssoc_seeded keys' ks _
        (fun y hy => hmem y (List.mem_cons_of_mem x hy)) hnd]
    refine List.map_congr_left fun k _ => ?_
    by_cases hk : k = x
    · subst hk
      simp only [List.filter_cons]
      simp
      omega
    · simp only [List.filter_cons]
      have : (decide (x = k)) = false := by
        simp only [decide_eq_false_iff_not]
        exact fun h => hk h.symm
      rw [this, if_neg hk]
      simp

theorem countOf_map_seeded {κ : Type} [DecidableEq κ] (d : κ) :
    ∀ (ks : List κ) (g : κ → Nat), d ∈ ks → countOf d (ks.map fun k => (k, g k)) = g d
  | [], _, hd => absurd hd (List.not_mem_nil d)
  | k0 :: rest, g, hd => by
    simp only [List.map_cons, countOf]
    by_cases hk : k0 = d
    · rw [if_pos hk, hk]
    · rw [if_neg hk]
      have hd' : d ∈ rest := by
        rcases List.mem_cons.mp hd with h | h
        · exact absurd h.symm hk
        · exact h
      exact countOf_map_seeded d rest g hd'

theorem getD_mem_of_lt {α : Type} :
    ∀ (l : List α) (i : Nat) (d : α), i < l.length → l.getD i d ∈ l
  | [], _, _, h => absurd h (by simp)
  | a :: l', 0, d, _ => by
    rw [List.getD_cons_zero]
    exact List.mem_cons_self _ _
  | a :: l', i + 1, d, h => by
    rw [List.getD_cons_succ]
    exact List.mem_cons_of_mem _ (getD_mem_of_lt l' i d (by simpa using h))

/-- Claim C3 is false as stated: on the empty entry sequence, timeData
returns three empty series, not 24 zero-seeded hourly buckets and 7
zero-seeded weekly buckets. -/
theorem claim_C3_counterexample :
    timeData [] = ⟨[], [], []⟩ ∧
    (timeData []).hourly.length ≠ 24 ∧
    (timeData []).weekly.length ≠ 7 := by
  decide

/-- Claim C3 (amended): for every NON-EMPTY input entry sequence the
time-bucket aggregation returns an hourly series of exactly 24 buckets for
hours 0 through 23 in order and a weekly series of exactly 7 buckets Sunday
through Saturday, each counting the entries that fall in the bucket (count
0 when none does); the empty input sequence instead short-circuits to three
EMPTY series. -/
theorem claim_C3 (data : List LogEntry) (hne : data ≠ []) :
    (timeData data).hourly
      = (List.range 24).map (fun h => HourBucket.mk (renderHour h) h
          ((data.filter (fun e => decide (entryHour e = h))).length)) ∧
    (timeData data).weekly
      = weekdays.map (fun d => WeekBucket.mk d
          ((data.filter (fun e => decide (entryWeekdayName e = d))).length)) := by
  constructor
  · simp only [timeData, if_neg hne]
    have h0 : data.foldl (fun m e => bumpAssoc (entryHour e) m)
          ((List.range 24).map fun h => (h, 0))
        = (data.map entryHour).foldl (fun m x => bumpAssoc x m)
          ((List.range 24).map fun h => (h, 0)) := by
      rw [List.foldl_map]
    have hmem : ∀ x ∈ data.map entryHour, x ∈ List.range 24 := by
      intro x hx
      rcases List.mem_map.mp hx with ⟨e, _, rfl⟩
      refine List.mem_range.mpr ?_
      have h1 : 0 ≤ ((entryTime e).ediv 3600000).emod 24 :=
        Int.emod_nonneg _ (by norm_num)
      have h2 : ((entryTime e).ediv 3600000).emod 24 < 24 :=
        Int.emod_lt_of_pos _ (by norm_num)
      unfold entryHour
      omega
    have h1 := foldl_bumpAssoc_seeded (data.map entryHour) (List.range 24)
      (fun _ => 0) hmem (List.nodup_range 24)
    rw [h0, h1, List.map_map]
    refine Eq.trans (List.mergeSort_of_sorted ?_) (List.map_congr_left ?_)
    · refine List.Pairwise.map _ (fun a b hab => ?_) (List.sorted_le_range 24)
      simpa [hourLe] using hab
    · intro k _
      simp only [Function.comp_apply, Nat.zero_add, HourBucket.mk.injEq,
        true_and]
      rw [List.filter_map, List.length_map]
      rfl
  · simp only [timeData, if_neg hne]
    have h0 : data.foldl (fun m e => bumpAssoc (entryWeekdayName e) m)
          (weekdays.map fun d' => (d', 0))
        = (data.map entryWeekdayName).foldl (fun m x => bumpAssoc x m)
          (weekdays.map fun d' => (d', 0)) := by
      rw [List.foldl_map]
    have hmem : ∀ x ∈ data.map entryWeekdayName, x ∈ weekdays := by
      intro x hx
      rcases List.mem_map.mp hx with ⟨e, _, rfl⟩
      have h1 : 0 ≤ (entryEpochDay e + 4).emod 7 :=
        Int.emod_nonneg _ (by norm_num)
      have h2 : (entryEpochDay e + 4).emod 7 < 7 :=
        Int.emod_lt_of_pos _ (by norm_num)
      refine getD_mem_of_lt weekdays (entryWeekday e) [] ?_
      have h7 : weekdays.length = 7 := by decide
      unfold entryWeekday
      omega
    have h1 := foldl_bumpAssoc_seeded (data.map entryWeekdayName) weekdays
      (fun _ => 0) hmem (by decide)
    rw [h0, h1]
    refine List.map_congr_left fun d hd => ?_
    rw [countOf_map_seeded d weekdays _ hd]
    simp only [Nat.zero_add, WeekBucket.mk.injEq, true_and]
    rw [List.filter_map, List.length_map]
    rfl

/-- Witness for claim C3 at a one-entry input. -/
theorem claim_C3_witness :
    (timeData [exA0]).hourly
      = (List.range 24).map (fun h => HourBucket.mk (renderHour h) h
          (([exA0].filter (fun e => decide (entryHour e = h))).length)) ∧
    (timeData [exA0]).weekly
      = weekdays.map (fun d => WeekBucket.mk d
          (([exA0].filter (fun e => decide (entryWeekdayName e = d))).length)) :=
  claim_C3 [exA0] (by decide)

/-! ## SelectionFilter (macrosForAnalysis in macro-analysis.tsx, and the
selection filter of timeData in the second time-analysis component) -/

/-- macrosForAnalysis from components/macro-analysis.tsx: empty stats give
[], empty selection with non-empty stats gives [], a selection whose SIZE
equals the number of distinct stat names gives the whole list (the size-
based fast path), and otherwise a membership filter runs. -/
def macrosForAnalysis (allMacroStats : List MacroStatEntry)
    (selected : Finset Str) : List MacroStatEntry :=
  if allMacroStats = [] then []
  else if selected.card = 0 ∧ 0 < allMacroStats.length then []
  else if selected.card = ((allMacroStats.map (fun s => s.name)).toFinset).card
      ∨ allMacroStats.length = 0 then allMacroStats
  else allMacroStats.filter (fun s => decide (s.name ∈ selected))

/-- Entry filter of the second time-analysis component's timeData: a
non-empty selection filters by membership, an empty selection yields no
data. -/
def filterEntriesTA (data : List LogEntry) (selected : Finset Str) :
    List LogEntry :=
  if 0 < selected.card then data.filter (fun e => decide (e.macroName ∈ selected))
  else []

/-- Stat entry for macro A used in the selection counterexample. -/
def statA : MacroStatEntry := ⟨"A".data, 1, 1, 0, 0, "t".data, 1⟩

/-- Stat entry for macro B used in the selection counterexample. -/
def statB : MacroStatEntry := ⟨"B".data, 1, 1, 0, 0, "t".data, 1⟩

/-- Selection of the same size as the stat-name universe but with different
contents. -/
def selC5 : Finset Str := {"A".data, "C".data}

/-- Claim C5 is false as stated for the statistics filter: on stats [A, B]
and selection {A, C} (same size two, different contents, neither empty nor
exactly the names present), the size-based fast path returns the full
source [A, B] instead of the membership filter's [A]. -/
theorem claim_C5_counterexample :
    selC5 ≠ (([statA, statB].map (fun s => s.name)).toFinset) ∧
    selC5.card ≠ 0 ∧
    macrosForAnalysis [statA, statB] selC5 = [statA, statB] ∧
    [statA, statB].filter (fun s => decide (s.name ∈ selC5)) = [statA] ∧
    macrosForAnalysis [statA, statB] selC5
      ≠ [statA, statB].filter (fun s => decide (s.name ∈ selC5)) := by
  decide

/-- Claim C5 (amended): both filters return [] on an empty selection (for
stats, when the source is non-empty), and the full source unchanged when
the selection is exactly the macro names present; otherwise the entry
filter always filters by membership, while the statistics filter does so
only when the selection's size differs from the number of distinct source
names — a selection of the same size as the name universe but different
contents takes the size-based fast path and returns the full source. -/
theorem claim_C5 :
    (∀ (data : List LogEntry) (sel : Finset Str), sel = ∅ →
      filterEntriesTA data sel = []) ∧
    (∀ (stats : List MacroStatEntry) (sel : Finset Str), sel = ∅ →
      stats ≠ [] → macrosForAnalysis stats sel = []) ∧
    (∀ (data : List LogEntry) (sel : Finset Str),
      sel = (data.map (fun e => e.macroName)).toFinset →
      filterEntriesTA data sel = data) ∧
    (∀ (stats : List MacroStatEntry) (sel : Finset Str),
      sel = (stats.map (fun s => s.name)).toFinset →
      macrosForAnalysis stats sel = stats) ∧
    (∀ (data : List LogEntry) (sel : Finset Str), sel ≠ ∅ →
      filterEntriesTA data sel
        = data.filter (fun e => decide (e.macroName ∈ sel))) ∧
    (∀ (stats : List MacroStatEntry) (sel : Finset Str), sel ≠ ∅ →
      sel.card ≠ ((stats.map (fun s => s.name)).toFinset).card →
      macrosForAnalysis stats sel
        = stats.filter (fun s => decide (s.name ∈ sel))) := by
  refine ⟨?_, ?_, ?_, ?_, ?_, ?_⟩
  · intro data sel hsel
    subst hsel
    simp [filterEntriesTA]
  · intro stats sel hsel hne
    subst hsel
    unfold macrosForAnalysis
    rw [if_neg hne, if_pos ⟨Finset.card_empty, List.length_pos.mpr hne⟩]
  · intro data sel hsel
    cases data with
    | nil =>
      subst hsel
      simp [filterEntriesTA]
    | cons e rest =>
      have hmem : e.macroName ∈ sel := by
        subst hsel
        simp
      have hpos : 0 < sel.card := Finset.card_pos.mpr ⟨e.macroName, hmem⟩
      unfold filterEntriesTA
      rw [if_pos hpos]
      refine List.filter_eq_self.mpr fun a ha => ?_
      subst hsel
      simp only [decide_eq_true_eq, List.mem_toFinset, List.mem_map]
      exact ⟨a, ha, rfl⟩
  · intro stats sel hsel
    cases stats with
    | nil =>
      unfold macrosForAnalysis
      rw [if_pos rfl]
    | cons s rest =>
      have hmem : s.name ∈ sel := by
        subst hsel
        simp
      have hpos : 0 < sel.card := Finset.card_pos.mpr ⟨s.name, hmem⟩
      unfold macrosForAnalysis
      rw [if_neg (by simp : ¬(s :: rest = []))]
      rw [if_neg (fun h => absurd h.1 (by omega))]
      rw [if_pos (Or.inl (by rw [hsel]))]
  · intro data sel hsel
    unfold filterEntriesTA
    rw [if_pos (Finset.card_pos.mpr (Finset.nonempty_iff_ne_empty.mpr hsel))]
  · intro stats sel hsel hcard
    have hpos : 0 < sel.card :=
      Finset.card_pos.mpr (Finset.nonempty_iff_ne_empty.mpr hsel)
    cases stats with
    | nil =>
      unfold macrosForAnalysis
      rw [if_pos rfl]
      simp
    | cons s rest =>
      unfold macrosForAnalysis
      rw [if_neg (by simp : ¬(s :: rest = [])),
        if_neg (fun h => by omega),
        if_neg ?_]
      rintro (h | h)
      · exact hcard h
      · simp at h

/-- Witness for claim C5 at concrete inputs. -/
theorem claim_C5_witness :
    filterEntriesTA [exA0] ∅ = [] ∧
    macrosForAnalysis [statA, statB]
      (([statA, statB].map (fun s => s.name)).toFinset) = [statA, statB] :=
  ⟨claim_C5.1 [exA0] ∅ rfl, claim_C5.2.2.2.1 [statA, statB] _ rfl⟩

/-! ## Hotkey aggregation (hotKeyData in components/keyboard-analysis.tsx) -/

/-- The four recognized modifier symbols with their names, in source
order. -/
def MODIFIER_SYMBOLS : List (Char × Str) :=
  [('⌘', "Cmd".data), ('⌥', "Option".data), ('⌃', "Ctrl".data),
   ('⇧', "Shift".data)]

/-- The three counter maps built by hotKeyData. -/
structure KeyMaps where
  keyStats : List (Str × Nat)
  modifierStats : List (Str × Nat)
  combinationStats : List (Str × Nat)
deriving DecidableEq, Repr

instance : Inhabited KeyMaps := ⟨⟨[], [], []⟩⟩

/-- Combination capture of /Hot Key (.+) is pressed/ on a trigger: the text
between the first occurrence of "Hot Key " and the last occurrence of
" is pressed" after it, required non-empty (leftmost match of the greedy
regex). -/
def extractCombo (t : Str) : Option Str :=
  match afterFirst ("Hot Key ".data) t with
  | none => none
  | some r =>
    match lastOccurrence (" is pressed".data) r with
    | none => none
    | some q => if 1 ≤ q then some (r.take q) else none

/-- Working copy of the combination after the modifier loop: the first
occurrence of each modifier symbol present in the ORIGINAL combination is
removed. -/
def residualKey (combination : Str) : Str :=
  MODIFIER_SYMBOLS.foldl
    (fun k sm => if sm.1 ∈ combination then removeFirst sm.1 k else k)
    combination

/-- The modifier loop of hotKeyData: for each symbol present in the
original combination, bump its modifier counter and strip its first
occurrence from the working copy. -/
def modKeyFold (combination : Str) (start : List (Str × Nat) × Str) :
    List (Str × Nat) × Str :=
  MODIFIER_SYMBOLS.foldl
    (fun st sm =>
      if sm.1 ∈ combination then (bumpAssoc sm.2 st.1, removeFirst sm.1 st.2)
      else st) start

/-- Model of String.prototype.toUpperCase as a per-character map. -/
def upperStr (s : Str) : Str := s.map Char.toUpper

/-- Processing of one matched combination: bump the combination counter,
run the modifier loop, and bump the key counter at the uppercased residual
when it is non-empty. -/
def processCombo (combination : Str) (acc : KeyMaps) : KeyMaps :=
  let acc1 : KeyMaps :=
    { acc with combinationStats := bumpAssoc combination acc.combinationStats }
  let mk := modKeyFold combination (acc1.modifierStats, combination)
  let acc2 : KeyMaps := { acc1 with modifierStats := mk.1 }
  if mk.2 ≠ [] then
    { acc2 with keyStats := bumpAssoc (upperStr mk.2) acc2.keyStats }
  else acc2

/-- Per-entry step: entries whose trigger does not match the regex
contribute nothing. -/
def hotKeyStep (acc : KeyMaps) (e : LogEntry) : KeyMaps :=
  match extractCombo e.trigger with
  | none => acc
  | some combination => processCombo combination acc

/-- Accumulation pass of hotKeyData: pre-filter the entries whose trigger
contains "Hot Key", then fold the per-entry step. -/
def hotKeyRaw (data : List LogEntry) : KeyMaps :=
  (data.filter (fun e => containsSub ("Hot Key".data) e.trigger)).foldl
    hotKeyStep ⟨[], [], []⟩

/-- Stable descending sort by count ((a, b) => b[1] - a[1]). -/
def sortByCountDesc (m : List (Str × Nat)) : List (Str × Nat) :=
  m.mergeSort (fun a b => decide (b.2 ≤ a.2))

/-- hotKeyData from components/keyboard-analysis.tsx: the three counter
maps, each ranked descending by count. -/
def hotKeyData (data : List LogEntry) : KeyMaps :=
  { keyStats := sortByCountDesc (hotKeyRaw data).keyStats
    modifierStats := sortByCountDesc (hotKeyRaw data).modifierStats
    combinationStats := sortByCountDesc (hotKeyRaw data).combinationStats }

/-! ## Hotkey lemmas -/

theorem startsWith_append_left (p q s : Str) :
    startsWith (p ++ q) s = true → startsWith p s = true := by
  induction p generalizing s with
  | nil => intro; rfl
  | cons a p' ih =>
    intro h
    cases s with
    | nil => cases h
    | cons x xs =>
      simp only [List.cons_append, startsWith, Bool.and_eq_true] at h ⊢
      exact ⟨h.1, ih xs h.2⟩

theorem afterFirst_append_isSome (p q : Str) :
    ∀ s : Str, (afterFirst (p ++ q) s).isSome = true →
      (afterFirst p s).isSome = true
  | [], h => by
    simp only [afterFirst] at h ⊢
    rcases List.append_eq_nil.mp (by
      by_contra hne
      rw [if_neg hne] at h
      cases h) with ⟨h1, _⟩
    rw [if_pos h1]
    rfl
  | x :: xs, h => by
    simp only [afterFirst] at h ⊢
    by_cases hsw : startsWith p (x :: xs) = true
    · rw [if_pos hsw]
      rfl
    · rw [if_neg hsw]
      by_cases hsw2 : startsWith (p ++ q) (x :: xs) = true
      · exact absurd (startsWith_append_left p q _ hsw2) hsw
      · rw [if_neg hsw2] at h
        exact afterFirst_append_isSome p q xs h

/-- A trigger matching the full hotkey regex in particular contains the
substring "Hot Key" checked by the pre-filter. -/
theorem containsSub_of_extractCombo (t : Str)
    (h : (extractCombo t).isSome = true) :
    containsSub ("Hot Key".data) t = true := by
  unfold extractCombo at h
  cases ha : afterFirst ("Hot Key ".data) t with
  | none => rw [ha] at h; cases h
  | some r =>
    have : (afterFirst ("Hot Key ".data) t).isSome = true := by
      rw [ha]; rfl
    unfold containsSub
    exact afterFirst_append_isSome ("Hot Key".data) (" ".data) t
      (by
        have he : ("Hot Key ".data : Str) = "Hot Key".data ++ " ".data := by decide
        rw [← he]
        exact this)

/-- The entries whose trigger fails the regex can be dropped without
changing the accumulation. -/
theorem hotKeyFold_filter :
    ∀ (data : List LogEntry) (acc : KeyMaps),
      (data.filter (fun e => containsSub ("Hot Key".data) e.trigger)).foldl
          hotKeyStep acc
        = (data.filter (fun e => (extractCombo e.trigger).isSome)).foldl
            hotKeyStep acc
  | [], _ => rfl
  | e :: rest, acc => by
    simp only [List.filter_cons]
    cases hS : (extractCombo e.trigger).isSome with
    | true =>
      rw [containsSub_of_extractCombo e.trigger hS]
      simp only [if_true]
      rw [List.foldl_cons, List.foldl_cons]
      exact hotKeyFold_filter rest (hotKeyStep acc e)
    | false =>
      have hstep : hotKeyStep acc e = acc := by
        unfold hotKeyStep
        cases he : extractCombo e.trigger with
        | none => rfl
        | some c => rw [he] at hS; cases hS
      simp only [Bool.false_eq_true, if_false]
      cases hC : containsSub ("Hot Key".data) e.trigger with
      | true =>
        simp only [if_true]
        rw [List.foldl_cons, hstep]
        exact hotKeyFold_filter rest acc
      | false =>
        simp only [Bool.false_eq_true, if_false]
        exact hotKeyFold_filter rest acc

/-- Entry with the hotkey trigger of the C8 scenario. -/
def hkT : LogEntry :=
  ⟨"2024-01-01 09:00:00".data, "A".data, "Hot Key ⌘⇧T is pressed".data,
   "r".data⟩

/-- Claim C8: only entries whose trigger matches the hotkey regex
contribute to the aggregation, and the single entry with trigger
"Hot Key ⌘⇧T is pressed" yields modifierStats Cmd:1 and Shift:1, keyStats
T:1, and combinationStats "⌘⇧T":1. -/
theorem claim_C8 :
    (∀ data : List LogEntry,
      hotKeyData data
        = hotKeyData (data.filter (fun e => (extractCombo e.trigger).isSome))) ∧
    hotKeyData [hkT]
      = ⟨[("T".data, 1)], [("Cmd".data, 1), ("Shift".data, 1)],
         [("⌘⇧T".data, 1)]⟩ := by
  constructor
  · intro data
    have hself : (data.filter (fun e => (extractCombo e.trigger).isSome)).filter
          (fun e => containsSub ("Hot Key".data) e.trigger)
        = data.filter (fun e => (extractCombo e.trigger).isSome) :=
      List.filter_eq_self.mpr fun e he =>
        containsSub_of_extractCombo e.trigger (List.mem_filter.mp he).2
    have hraw : hotKeyRaw data
        = hotKeyRaw (data.filter (fun e => (extractCombo e.trigger).isSome)) := by
      unfold hotKeyRaw
      rw [hself]
      exact hotKeyFold_filter data ⟨[], [], []⟩
    unfold hotKeyData
    rw [hraw]
  · have hraw : hotKeyRaw [hkT]
        = ⟨[("T".data, 1)], [("Cmd".data, 1), ("Shift".data, 1)],
           [("⌘⇧T".data, 1)]⟩ := by decide
    unfold hotKeyData sortByCountDesc
    rw [hraw]
    rw [List.mergeSort_singleton, List.mergeSort_singleton,
      List.mergeSort_of_sorted
        (show List.Pairwise (fun a b : Str × Nat => decide (b.2 ≤ a.2) = true)
          [("Cmd".data, 1), ("Shift".data, 1)] by decide)]

/-! ## Claim C10: repeated modifier symbols -/

theorem count_removeFirst_self :
    ∀ (s : Str) (c : Char), c ∈ s → (removeFirst c s).count c + 1 = s.count c
  | [], c, h => absurd h (List.not_mem_nil c)
  | x :: xs, c, h => by
    unfold removeFirst
    by_cases hx : x = c
    · rw [if_pos hx, hx, List.count_cons_self]
    · rw [if_neg hx]
      have hc : c ∈ xs := by
        rcases List.mem_cons.mp h with h' | h'
        · exact absurd h'.symm hx
        · exact h'
      rw [List.count_cons_of_ne (fun he => hx he.symm),
        List.count_cons_of_ne (fun he => hx he.symm)]
      exact count_removeFirst_self xs c hc

theorem count_removeFirst_ne :
    ∀ (s : Str) (c d : Char), c ≠ d → (removeFirst c s).count d = s.count d
  | [], _, _, _ => rfl
  | x :: xs, c, d, h => by
    unfold removeFirst
    by_cases hx : x = c
    · rw [if_pos hx, hx, List.count_cons_of_ne (fun he => h he.symm)]
    · rw [if_neg hx]
      by_cases hxd : x = d
      · rw [hxd, List.count_cons_self, List.count_cons_self,
          count_removeFirst_ne xs c d h]
      · rw [List.count_cons_of_ne (fun he => hxd he.symm),
          List.count_cons_of_ne (fun he => hxd he.symm),
          count_removeFirst_ne xs c d h]

/-- A conditional strip of a different symbol never changes the count of
sym. -/
theorem count_condStep (k : Str) (other sym : Char) (h : other ≠ sym)
    (cond : Prop) [Decidable cond] :
    ((if cond then removeFirst other k else k).count sym) = k.count sym := by
  split
  · exact count_removeFirst_ne k other sym h
  · rfl

/-- A symbol still present after a conditional strip of a different
symbol. -/
theorem mem_condStep (k : Str) (other sym : Char) (h : other ≠ sym)
    (cond : Prop) [Decidable cond] (hmem : sym ∈ k) :
    sym ∈ (if cond then removeFirst other k else k) := by
  have h1 := count_condStep k other sym h cond
  have h2 := List.count_pos_iff.mpr hmem
  exact List.count_pos_iff.mp (by omega)

/-- The working copy computed by the modifier loop is residualKey: the
second component of the paired fold ignores the counter component. -/
theorem modKeyFold_snd_aux (combination : Str) :
    ∀ (l : List (Char × Str)) (st : List (Str × Nat) × Str),
      (l.foldl
          (fun st sm =>
            if sm.1 ∈ combination then
              (bumpAssoc sm.2 st.1, removeFirst sm.1 st.2)
            else st) st).2
        = l.foldl
            (fun k sm => if sm.1 ∈ combination then removeFirst sm.1 k else k)
            st.2
  | [], _ => rfl
  | sm :: l', st => by
    rw [List.foldl_cons, List.foldl_cons]
    by_cases h : sm.1 ∈ combination
    · rw [if_pos h, if_pos h]
      exact modKeyFold_snd_aux combination l' _
    · rw [if_neg h, if_neg h]
      exact modKeyFold_snd_aux combination l' st

/-- Entry with a repeated modifier symbol in its combination. -/
def hkCC : LogEntry :=
  ⟨"2024-01-01 09:00:00".data, "A".data, "Hot Key ⌘⌘C is pressed".data,
   "r".data⟩

/-- Claim C10: the modifier loop strips only the FIRST occurrence of each
present modifier symbol from the working copy (so a repeated symbol loses
exactly one occurrence), it is exactly the residual used for keyStats, and
a single entry with combination ⌘⌘C yields modifier count Cmd:1 and the
keyStats key "⌘C" that still contains the extra modifier symbol. -/
theorem claim_C10 :
    (∀ (combination : Str) (ms : List (Str × Nat)),
      (modKeyFold combination (ms, combination)).2 = residualKey combination) ∧
    (∀ (combination : Str) (sym : Char),
      sym ∈ MODIFIER_SYMBOLS.map (fun sm => sm.1) → sym ∈ combination →
      (residualKey combination).count sym + 1 = combination.count sym) ∧
    hotKeyData [hkCC]
      = ⟨[("⌘C".data, 1)], [("Cmd".data, 1)], [("⌘⌘C".data, 1)]⟩ := by
  refine ⟨?_, ?_, ?_⟩
  · intro combination ms
    exact modKeyFold_snd_aux combination MODIFIER_SYMBOLS (ms, combination)
  · intro combination sym hsym hmem
    have hcases : sym = '⌘' ∨ sym = '⌥' ∨ sym = '⌃' ∨ sym = '⇧' := by
      simpa [ MODIFIER_SYMBOLS] using hsym
    unfold residualKey MODIFIER_SYMBOLS
    simp only [List.foldl_cons, List.foldl_nil]
    rcases hcases with rfl | rfl | rfl | rfl
    · rw [count_condStep _ '⇧' '⌘' (by decide), count_condStep _ '⌃' '⌘' (by decide),
        count_condStep _ '⌥' '⌘' (by decide), if_pos hmem]
      exact count_removeFirst_self combination '⌘' hmem
    · rw [count_condStep _ '⇧' '⌥' (by decide), count_condStep _ '⌃' '⌥' (by decide),
        if_pos hmem]
      have hmem1 : '⌥' ∈ (if '⌘' ∈ combination then removeFirst '⌘' combination
          else combination) :=
        mem_condStep combination '⌘' '⌥' (by decide) _ hmem
      rw [count_removeFirst_self _ '⌥' hmem1]
      exact count_condStep combination '⌘' '⌥' (by decide) _
    · rw [count_condStep _ '⇧' '⌃' (by decide), if_pos hmem]
      have hmem1 : '⌃' ∈ (if '⌘' ∈ combination then removeFirst '⌘' combination
          else combination) :=
        mem_condStep combination '⌘' '⌃' (by decide) _ hmem
      have hmem2 : '⌃' ∈ (if '⌥' ∈ combination then removeFirst '⌥'
          (if '⌘' ∈ combination then removeFirst '⌘' combination else combination)
          else (if '⌘' ∈ combination then removeFirst '⌘' combination
            else combination)) :=
        mem_condStep _ '⌥' '⌃' (by decide) _ hmem1
      rw [count_removeFirst_self _ '⌃' hmem2,
        count_condStep _ '⌥' '⌃' (by decide),
        count_condStep _ '⌘' '⌃' (by decide)]
    · rw [if_pos hmem]
      have hmem1 : '⇧' ∈ (if '⌘' ∈ combination then removeFirst '⌘' combination
          else combination) :=
        mem_condStep combination '⌘' '⇧' (by decide) _ hmem
      have hmem2 : '⇧' ∈ (if '⌥' ∈ combination then removeFirst '⌥'
          (if '⌘' ∈ combination then removeFirst '⌘' combination
            else combination)
          else (if '⌘' ∈ combination then removeFirst '⌘' combination
            else combination)) :=
        mem_condStep _ '⌥' '⇧' (by decide) _ hmem1
      have hmem3 : '⇧' ∈ (if '⌃' ∈ combination then removeFirst '⌃'
          (if '⌥' ∈ combination then removeFirst '⌥'
            (if '⌘' ∈ combination then removeFirst '⌘' combination
              else combination)
            else (if '⌘' ∈ combination then removeFirst '⌘' combination
              else combination))
          else (if '⌥' ∈ combination then removeFirst '⌥'
            (if '⌘' ∈ combination then removeFirst '⌘' combination
              else combination)
            else (if '⌘' ∈ combination then removeFirst '⌘' combination
              else combination))) :=
        mem_condStep _ '⌃' '⇧' (by decide) _ hmem2
      rw [count_removeFirst_self _ '⇧' hmem3,
        count_condStep _ '⌃' '⇧' (by decide),
        count_condStep _ '⌥' '⇧' (by decide),
        count_condStep _ '⌘' '⇧' (by decide)]
  · have hraw : hotKeyRaw [hkCC]
        = ⟨[("⌘C".data, 1)], [("Cmd".data, 1)], [("⌘⌘C".data, 1)]⟩ := by decide
    unfold hotKeyData sortByCountDesc
    rw [hraw]
    rw [List.mergeSort_singleton, List.mergeSort_singleton,
      List.mergeSort_singleton]

/-- Witness for claim C10 on the repeated-modifier combination ⌘⌘C. -/
theorem claim_C10_witness :
    (residualKey ("⌘⌘C".data)).count '⌘' + 1 = ("⌘⌘C".data).count '⌘' :=
  claim_C10.2.1 ("⌘⌘C".data) '⌘' (by decide) (by decide)

end Kmla
